import Mathlib

/-!
Verification development for the order-parameterization and symbol-translation
core of the atas_mt5 repository (Python sources: py_order_api/symbol_mapper.py,
py_order_api/mt5_trader.py, py_order_api/bybit/bybit_trader.py).

The Python code is shallowly embedded: Python dicts become insertion-ordered
association lists (Python 3.7+ dicts preserve insertion order, and updating an
existing key keeps its position while a new key is appended at the end), Python
floats become rationals (exact arithmetic; the built-in round is half-to-even,
modelled by roundHalfEven below), and venue I/O (MT5 / Bybit HTTP facts) is
passed in as explicit parameters or Option-valued inputs.
-/

set_option autoImplicit false

universe u

/-! ## Python dict as an insertion-ordered association list -/

/-- Lookup in a Python dict: the value stored at key k, if any
(keys are unique in a real dict; this returns the first binding). -/
def dictGet? {α : Type u} (k : String) : List (String × α) → Option α
  | [] => none
  | (k', v) :: rest => if k' = k then some v else dictGet? k rest

/-- Python membership test k in d. -/
def dictContains {α : Type u} (k : String) (l : List (String × α)) : Bool :=
  (dictGet? k l).isSome

/-- Python assignment d[k] = v: an existing key keeps its position,
a new key is appended at the end. -/
def dictInsert {α : Type u} (k : String) (v : α) : List (String × α) → List (String × α)
  | [] => [(k, v)]
  | (k', v') :: rest => if k' = k then (k, v) :: rest else (k', v') :: dictInsert k v rest

/-- Python del d[k]: removes the (unique) binding of k; on an association
list this removes the first binding of k. -/
def dictErase {α : Type u} (k : String) : List (String × α) → List (String × α)
  | [] => []
  | (k', v') :: rest => if k' = k then rest else (k', v') :: dictErase k rest

/-- Keys of the table are pairwise distinct, as in a real Python dict. -/
def NodupKeys {α : Type u} (l : List (String × α)) : Prop :=
  (l.map Prod.fst).Nodup



/-! ## Python round (banker's rounding, round-half-to-even) -/

/-- Python built-in round(x) on an exact value: round to the nearest integer,
ties to the even neighbour. -/
def roundHalfEven (z : ℚ) : ℤ :=
  if z - (⌊z⌋ : ℚ) < 1/2 then ⌊z⌋
  else if 1/2 < z - (⌊z⌋ : ℚ) then ⌊z⌋ + 1
  else if ⌊z⌋ % 2 = 0 then ⌊z⌋ else ⌊z⌋ + 1

/-- Python round(x, digits): round to digits decimal places. -/
def roundToDigits (x : ℚ) (digits : ℕ) : ℚ :=
  (roundHalfEven (x * 10 ^ digits) : ℚ) / 10 ^ digits

/-! ## symbol_mapper.py: SymbolMapper -/

/-- Helper for Python substring containment: needle is an initial segment of hay. -/
def charsPrefixOf : List Char → List Char → Bool
  | [], _ => true
  | _ :: _, [] => false
  | c :: cs, d :: ds => c == d && charsPrefixOf cs ds

/-- Helper: needle occurs contiguously somewhere in hay. -/
def charsContains (needle : List Char) : List Char → Bool
  | [] => charsPrefixOf needle []
  | c :: t => charsPrefixOf needle (c :: t) || charsContains needle t

/-- Python expression needle in hay on strings (substring containment;
the empty needle is contained in every string). -/
def strContains (hay needle : String) : Bool :=
  charsContains needle.data hay.data

/-- Value stored in SymbolMapper.symbol_mapping for one external symbol
(the normalized form with symbol and volume_ratio fields). -/
structure MappingInfo where
  symbol : String
  volume_ratio : ℚ
deriving DecidableEq

/-- In-memory state of the SymbolMapper class: the forward table
symbol_mapping and the reverse index reverse_mapping. -/
structure SymbolMapper where
  symbol_mapping : List (String × MappingInfo)
  reverse_mapping : List (String × String)
deriving DecidableEq

/-- A value of the symbol_mapping entry in the configuration file:
the legacy format is a bare string, the new format is a dict with optional
symbol and volume_ratio fields; anything else is skipped by load_mapping. -/
inductive ConfigVal where
  | legacy (symbol : String)
  | full (symbol : Option String) (volume_ratio : Option ℚ)
  | malformed
deriving DecidableEq

/-- Normalization performed by load_mapping on one configuration entry
(symbol_mapper.py lines 37-49). -/
def normalizeEntry (external_symbol : String) : ConfigVal → Option MappingInfo
  | .legacy s => some ⟨s, 1⟩
  | .full s r => some ⟨s.getD external_symbol, r.getD 1⟩
  | .malformed => none

/-- SymbolMapper.load_mapping (symbol_mapper.py lines 28-62). The cfg argument
none models a missing, unreadable or malformed configuration file: the code
catches every exception (and logs), leaving the tables unchanged, and any
exception in the load path fires before the first table mutation. With a
readable file the entries are merged into symbol_mapping and reverse_mapping
is rebuilt from scratch, keeping only the first external symbol per venue
symbol. The entry-merging loop (lines 37-49) and the reverse rebuild loop
(lines 51-56) are the two named helpers below. -/
def mergeConfigEntries (entries : List (String × ConfigVal))
    (m : List (String × MappingInfo)) : List (String × MappingInfo) :=
  entries.foldl
    (fun m kv =>
      match normalizeEntry kv.1 kv.2 with
      | some info => dictInsert kv.1 info m
      | none => m)
    m

/-- The reverse-index rebuild loop of load_mapping (symbol_mapper.py lines
51-56): walk the forward table in order and record, per venue symbol, the
first external symbol mapped to it. -/
def rebuildReverseAux (acc : List (String × String)) :
    List (String × MappingInfo) → List (String × String)
  | [] => acc
  | kv :: rest =>
    rebuildReverseAux
      (if dictContains kv.2.symbol acc then acc else dictInsert kv.2.symbol kv.1 acc)
      rest

def load_mapping (s : SymbolMapper) (cfg : Option (List (String × ConfigVal))) :
    SymbolMapper :=
  match cfg with
  | none => s
  | some entries =>
    let forward := mergeConfigEntries entries s.symbol_mapping
    ⟨forward, rebuildReverseAux [] forward⟩

/-- SymbolMapper.__init__: tables start empty, then load_mapping runs. -/
def init_mapper (cfg : Option (List (String × ConfigVal))) : SymbolMapper :=
  load_mapping ⟨[], []⟩ cfg

/-- SymbolMapper._find_best_match (symbol_mapper.py lines 64-79): scan the
keys of symbol_mapping in insertion order and return the first key that is
a substring of external_symbol. -/
def find_best_match (m : List (String × MappingInfo)) (external_symbol : String) :
    Option String :=
  match m with
  | [] => none
  | (k, _) :: rest =>
    if strContains external_symbol k then some k else find_best_match rest external_symbol

/-- SymbolMapper.map_to_mt5 (symbol_mapper.py lines 81-105): exact lookup
first, then containment match, otherwise the input unchanged. -/
def map_to_mt5 (s : SymbolMapper) (external_symbol : String) : String :=
  match dictGet? external_symbol s.symbol_mapping with
  | some info => info.symbol
  | none =>
    match find_best_match s.symbol_mapping external_symbol with
    | some best =>
      match dictGet? best s.symbol_mapping with
      | some info => info.symbol
      | none => external_symbol
    | none => external_symbol

/-- SymbolMapper.get_volume_ratio (symbol_mapper.py lines 107-131). -/
def get_volume_ratio (s : SymbolMapper) (external_symbol : String) : ℚ :=
  match dictGet? external_symbol s.symbol_mapping with
  | some info => info.volume_ratio
  | none =>
    match find_best_match s.symbol_mapping external_symbol with
    | some best =>
      match dictGet? best s.symbol_mapping with
      | some info => info.volume_ratio
      | none => 1
    | none => 1

/-- SymbolMapper.map_volume (symbol_mapper.py lines 133-147). -/
def map_volume (s : SymbolMapper) (external_symbol : String) (volume : ℚ) : ℚ :=
  volume * get_volume_ratio s external_symbol

/-- SymbolMapper.map_from_mt5 (symbol_mapper.py lines 149-164): reverse-index
lookup, the input unchanged when absent. -/
def map_from_mt5 (s : SymbolMapper) (mt5_symbol : String) : String :=
  match dictGet? mt5_symbol s.reverse_mapping with
  | some external_symbol => external_symbol
  | none => mt5_symbol

/-- SymbolMapper.add_mapping (symbol_mapper.py lines 166-195), in-memory
effect with save=False (persistence is out of scope): empty identifiers are
rejected, otherwise the forward entry is written and the reverse index is
pointed at this external symbol. -/
def add_mapping (s : SymbolMapper) (external_symbol mt5_symbol : String)
    (volume_ratio : ℚ) : SymbolMapper × Bool :=
  if external_symbol = "" ∨ mt5_symbol = "" then (s, false)
  else
    ({ symbol_mapping := dictInsert external_symbol ⟨mt5_symbol, volume_ratio⟩ s.symbol_mapping,
       reverse_mapping := dictInsert mt5_symbol external_symbol s.reverse_mapping }, true)

/-- SymbolMapper.remove_mapping (symbol_mapper.py lines 197-223), in-memory
effect with save=False: fails when the key is absent; otherwise deletes the
forward entry and, if present, the reverse entry of its venue symbol. -/
def remove_mapping (s : SymbolMapper) (external_symbol : String) : SymbolMapper × Bool :=
  match dictGet? external_symbol s.symbol_mapping with
  | none => (s, false)
  | some info =>
    ({ symbol_mapping := dictErase external_symbol s.symbol_mapping,
       reverse_mapping :=
         if dictContains info.symbol s.reverse_mapping
         then dictErase info.symbol s.reverse_mapping
         else s.reverse_mapping }, true)

/-- One mutating operation on the mapping table. -/
inductive MapperOp where
  | load (cfg : List (String × ConfigVal))
  | add (external_symbol mt5_symbol : String) (volume_ratio : ℚ)
  | remove (external_symbol : String)

/-- Run one operation (state effect only). -/
def applyOp (s : SymbolMapper) : MapperOp → SymbolMapper
  | .load cfg => load_mapping s (some cfg)
  | .add e v r => (add_mapping s e v r).1
  | .remove e => (remove_mapping s e).1

/-- Run a sequence of operations. -/
def applyOps (s : SymbolMapper) (ops : List MapperOp) : SymbolMapper :=
  ops.foldl applyOp s

/-- The SymbolMapper starting state: both tables empty. -/
def emptyMapper : SymbolMapper := ⟨[], []⟩

/-- Executable check of the reverse-index invariant: every venue symbol in
the reverse index has at least one forward entry carrying it. -/
def checkReverseInv (s : SymbolMapper) : Bool :=
  s.reverse_mapping.all fun p => s.symbol_mapping.any fun q => q.2.symbol == p.1

/-- The reverse-index invariant as a proposition. -/
def ReverseInv (s : SymbolMapper) : Prop :=
  ∀ p ∈ s.reverse_mapping, ∃ q ∈ s.symbol_mapping, q.2.symbol = p.1

/-- Both tables have pairwise-distinct keys (true of real Python dicts). -/
def wellFormed (s : SymbolMapper) : Prop :=
  NodupKeys s.symbol_mapping ∧ NodupKeys s.reverse_mapping

/-- An add operation is non-rebinding in state s when it does not change the
venue symbol of an already-mapped external symbol. -/
def checkSafeOp (s : SymbolMapper) : MapperOp → Bool
  | .add e v _ =>
    match dictGet? e s.symbol_mapping with
    | some info => info.symbol == v
    | none => true
  | _ => true

/-- A sequence of operations is non-rebinding when each add is non-rebinding
in the state it runs in. -/
def checkSafeOps (s : SymbolMapper) : List MapperOp → Bool
  | [] => true
  | op :: rest => checkSafeOp s op && checkSafeOps (applyOp s op) rest

/-- Modelled from the spec: resolution by the longest table key that is a
substring of the input, ties broken by the first key found (spec section 4.1);
used to compare the code's containment matching against the spec's words. -/
def specLongestContainedKey (m : List (String × MappingInfo)) (external_symbol : String) :
    Option String :=
  m.foldl
    (fun best kv =>
      if strContains external_symbol kv.1 then
        match best with
        | none => some kv.1
        | some b => if b.length < kv.1.length then some kv.1 else best
      else best)
    none

/-! ## mt5_trader.py and bybit_trader.py: order side and price calculators -/

/-- Order direction, the "BUY" / "SELL" strings of the Python code. -/
inductive OrderSide where
  | buy
  | sell
deriving DecidableEq

/-- MT5Trader.calculate_tp_by_profit_amount (mt5_trader.py lines 170-248),
with the venue facts that the code reads from mt5.symbol_info passed as
parameters (tick_value, tick_size, point, stops_level, digits). The code
returns the sentinel 0 when tick_value or tick_size is zero; otherwise it
computes the take-profit from the target profit, clamps it to the minimum
protective distance stops_level * point, and finally rounds to digits
decimal places. -/
def calculate_tp_by_profit_amount (order_type : OrderSide)
    (volume entry_price profit_amount tick_value tick_size point stops_level : ℚ)
    (digits : ℕ) : ℚ :=
  if tick_value = 0 ∨ tick_size = 0 then 0
  else
    let value_per_tick := tick_value * volume
    let ticks_needed := profit_amount / value_per_tick
    let tp_price :=
      match order_type with
      | .buy => entry_price + ticks_needed * tick_size
      | .sell => entry_price - ticks_needed * tick_size
    let min_distance := stops_level * point
    let tp_clamped :=
      match order_type with
      | .buy =>
        if tp_price < entry_price + min_distance then entry_price + min_distance else tp_price
      | .sell =>
        if entry_price - min_distance < tp_price then entry_price - min_distance else tp_price
    roundToDigits tp_clamped digits

/-- The Bybit take-profit-from-profit-amount computation inside
BybitTrader.open_position (bybit_trader.py lines 269-276): a flat
one-dollar-per-point simplification with no minimum-distance clamp and no
rounding. -/
def bybit_tp_from_profit (order_type : OrderSide)
    (price actual_volume profit_amount : ℚ) : ℚ :=
  let tp_distance := profit_amount / actual_volume
  match order_type with
  | .buy => price + tp_distance
  | .sell => price - tp_distance

/-- The quantity normalization inside BybitTrader.open_position
(bybit_trader.py lines 237-243): raise to min_order_qty when below it, then
round to the nearest multiple of qty_step. -/
def bybit_normalize_volume (actual_volume min_order_qty qty_step : ℚ) : ℚ :=
  let raised := if actual_volume < min_order_qty then min_order_qty else actual_volume
  (roundHalfEven (raised / qty_step) : ℚ) * qty_step

/-- BybitTrader.calculate_sl_by_percentage (bybit_trader.py lines 130-178),
happy path with the tick size from get_instruments_info passed in: percentage
distance from the entry price, rounded to the nearest multiple of tick_size. -/
def calculate_sl_by_percentage (order_type : OrderSide)
    (entry_price percentage tick_size : ℚ) : ℚ :=
  let sl_distance := entry_price * (percentage / 100)
  let sl_price :=
    match order_type with
    | .buy => entry_price - sl_distance
    | .sell => entry_price + sl_distance
  (roundHalfEven (sl_price / tick_size) : ℚ) * tick_size

/-- Modelled from the spec: rounding a price to the nearest multiple of the
tick size (spec section 4.2, percentage stop-loss), for comparison with the
code's formula. -/
def specRoundToTickMultiple (x tick_size : ℚ) : ℚ :=
  (roundHalfEven (x / tick_size) : ℚ) * tick_size

/-! ## bybit_trader.py: order submission with one protective-price fallback -/

/-- The parameter dict sent to session.place_order by
BybitTrader.open_position: stopLoss / takeProfit are present only when the
corresponding price is positive. -/
structure OrderParams where
  symbol : String
  side : OrderSide
  qty : ℚ
  stopLoss : Option ℚ
  takeProfit : Option ℚ
deriving DecidableEq

/-- Build order_params (bybit_trader.py lines 284-299): protective prices
are attached only when positive. -/
def mkOrderParams (symbol : String) (side : OrderSide) (qty sl tp : ℚ) : OrderParams :=
  { symbol := symbol
    side := side
    qty := qty
    stopLoss := if 0 < sl then some sl else none
    takeProfit := if 0 < tp then some tp else none }

/-- simple_params (bybit_trader.py lines 311-317): the same order with the
protective prices omitted entirely. -/
def stripProtective (p : OrderParams) : OrderParams :=
  { p with stopLoss := none, takeProfit := none }

/-- Venue response to one place_order call: a retCode 0 success payload, a
non-zero retCode rejection payload, or a raised exception (pybit surfaces
venue rejections of the protective prices as exceptions). -/
inductive SubmitOutcome where
  | ok (orderId : String)
  | rejected (retMsg : String)
  | raised (errMsg : String)
deriving DecidableEq

/-- The dict BybitTrader.open_position returns to its caller: retcode 0 with
the order id on success, retcode 10001 with a message otherwise. -/
structure OrderResult where
  retcode : ℤ
  order : String
  comment : String
deriving DecidableEq

/-- Response handling after the submission attempts (bybit_trader.py lines
321-339): retCode 0 becomes a success dict, anything else an error dict. -/
def responseToResult : SubmitOutcome → OrderResult
  | .ok orderId => ⟨0, orderId, "Success"⟩
  | .rejected retMsg => ⟨10001, "", retMsg⟩
  | .raised errMsg => ⟨10001, "", "open exception: " ++ errMsg⟩

/-- The submission protocol of BybitTrader.open_position (bybit_trader.py
lines 301-339): try place_order with the full params; if the call raises,
send simple_params (protective prices stripped) exactly once and use that
response; an exception from the second call is caught by the outer handler
and returned as an error dict. The venue's reaction to the first and to the
(potential) second submission are the parameters outcome1 and outcome2. The
first component of the result is the trace of submitted parameter sets. -/
def open_position_submit (p : OrderParams) (outcome1 outcome2 : SubmitOutcome) :
    List OrderParams × OrderResult :=
  match outcome1 with
  | .ok orderId => ([p], responseToResult (.ok orderId))
  | .rejected retMsg => ([p], responseToResult (.rejected retMsg))
  | .raised _ => ([p, stripProtective p], responseToResult outcome2)

/-! ## mt5_trader.py: batch position closure -/

/-- The loop of MT5Trader.close_positions_by_symbol / close_all_positions
(mt5_trader.py lines 478-484 and 503-509): close every ticket, recording
failures without stopping; returns the tickets attempted and the final
all_closed flag. -/
def closeLoop (closeTicket : ℕ → Bool) : List ℕ → Bool → List ℕ × Bool
  | [], all_closed => ([], all_closed)
  | t :: ts, all_closed =>
    let ok := closeTicket t
    let rest := closeLoop closeTicket ts (all_closed && ok)
    (t :: rest.1, rest.2)

/-- MT5Trader.close_positions_by_symbol (mt5_trader.py lines 458-484), with
the venue call mt5.positions_get(symbol=...) passed in as positions (none
models a failed query, which Python's falsiness test treats like an empty
tuple) and close_position_by_ticket as the oracle closeTicket. Returns the
attempted tickets and the boolean result. -/
def close_positions_by_symbol (connected : Bool) (positions : Option (List ℕ))
    (closeTicket : ℕ → Bool) : List ℕ × Bool :=
  if connected = false then ([], false)
  else
    let ps := positions.getD []
    if ps.isEmpty then ([], true)
    else closeLoop closeTicket ps true

/-- MT5Trader.close_all_positions (mt5_trader.py lines 486-509): identical
shape over mt5.positions_get() with no symbol filter. -/
def close_all_positions (connected : Bool) (positions : Option (List ℕ))
    (closeTicket : ℕ → Bool) : List ℕ × Bool :=
  if connected = false then ([], false)
  else
    let ps := positions.getD []
    if ps.isEmpty then ([], true)
    else closeLoop closeTicket ps true

/-! ## Library lemmas about the dict operations and rounding -/

section DictLemmas

variable {α : Type u}

theorem dictGet?_eq_some_mem {k : String} {v : α} :
    ∀ {l : List (String × α)}, dictGet? k l = some v → (k, v) ∈ l := by
  intro l
  induction l with
  | nil => intro h; simp [dictGet?] at h
  | cons hd tl ih =>
    intro h
    obtain ⟨k', v'⟩ := hd
    simp only [dictGet?] at h
    by_cases hk : k' = k
    · rw [if_pos hk] at h
      cases Option.some.inj h
      rw [← hk]
      exact List.mem_cons_self _ _
    · rw [if_neg hk] at h
      exact List.mem_cons_of_mem _ (ih h)

theorem dictGet?_eq_none_of_not_mem_keys {k : String} :
    ∀ {l : List (String × α)}, k ∉ l.map Prod.fst → dictGet? k l = none := by
  intro l
  induction l with
  | nil => intro _; rfl
  | cons hd tl ih =>
    intro h
    simp only [List.map_cons, List.mem_cons, not_or] at h
    simp only [dictGet?]
    rw [if_neg (fun he => h.1 he.symm)]
    exact ih h.2

theorem mem_keys_of_dictGet?_eq_some {k : String} {v : α} {l : List (String × α)}
    (h : dictGet? k l = some v) : k ∈ l.map Prod.fst := by
  exact List.mem_map.mpr ⟨(k, v), dictGet?_eq_some_mem h, rfl⟩

theorem dictGet?_dictInsert_self (k : String) (v : α) :
    ∀ (l : List (String × α)), dictGet? k (dictInsert k v l) = some v := by
  intro l
  induction l with
  | nil => simp [dictInsert, dictGet?]
  | cons hd tl ih =>
    obtain ⟨k', v'⟩ := hd
    by_cases hk : k' = k
    · simp [dictInsert, dictGet?, hk]
    · simp [dictInsert, dictGet?, hk, ih]

theorem dictGet?_dictInsert_ne {a k : String} (v : α) (hne : a ≠ k) :
    ∀ (l : List (String × α)), dictGet? a (dictInsert k v l) = dictGet? a l := by
  intro l
  have hka : ¬ (k = a) := fun h => hne h.symm
  induction l with
  | nil => simp only [dictInsert, dictGet?, if_neg hka]
  | cons hd tl ih =>
    obtain ⟨k', v'⟩ := hd
    by_cases hk : k' = k
    · have hk'a : ¬ (k' = a) := by rw [hk]; exact hka
      simp only [dictInsert, if_pos hk, dictGet?, if_neg hka, if_neg hk'a]
    · simp only [dictInsert, if_neg hk, dictGet?]
      by_cases ha : k' = a
      · rw [if_pos ha, if_pos ha]
      · rw [if_neg ha, if_neg ha, ih]

theorem dictGet?_dictErase_ne {a k : String} (hne : a ≠ k) :
    ∀ (l : List (String × α)), dictGet? a (dictErase k l) = dictGet? a l := by
  intro l
  induction l with
  | nil => rfl
  | cons hd tl ih =>
    obtain ⟨k', v'⟩ := hd
    by_cases hk : k' = k
    · have hk'a : ¬ (k' = a) := by rw [hk]; exact fun h => hne h.symm
      simp only [dictErase, if_pos hk, dictGet?, if_neg hk'a]
    · simp only [dictErase, if_neg hk, dictGet?]
      by_cases ha : k' = a
      · rw [if_pos ha, if_pos ha]
      · rw [if_neg ha, if_neg ha, ih]

theorem dictErase_sublist (k : String) :
    ∀ (l : List (String × α)), (dictErase k l).Sublist l := by
  intro l
  induction l with
  | nil => exact List.Sublist.refl _
  | cons hd tl ih =>
    obtain ⟨k', v'⟩ := hd
    simp only [dictErase]
    by_cases hk : k' = k
    · rw [if_pos hk]
      exact List.sublist_cons_self _ _
    · rw [if_neg hk]
      exact ih.cons₂ _

theorem mem_of_mem_dictErase {k : String} {p : String × α} {l : List (String × α)}
    (h : p ∈ dictErase k l) : p ∈ l :=
  (dictErase_sublist k l).mem h

theorem mem_dictErase_of_ne {k : String} {p : String × α} (hne : p.1 ≠ k) :
    ∀ {l : List (String × α)}, p ∈ l → p ∈ dictErase k l := by
  intro l
  induction l with
  | nil => intro h; exact absurd h (List.not_mem_nil _)
  | cons hd tl ih =>
    intro h
    obtain ⟨k', v'⟩ := hd
    by_cases hk : k' = k
    · rcases List.mem_cons.mp h with h1 | h1
      · rw [h1] at hne
        exact absurd hk hne
      · simp only [dictErase, if_pos hk]
        exact h1
    · simp only [dictErase, if_neg hk, List.mem_cons]
      rcases List.mem_cons.mp h with h1 | h1
      · exact Or.inl h1
      · exact Or.inr (ih h1)

theorem nodupKeys_dictErase (k : String) {l : List (String × α)} (h : NodupKeys l) :
    NodupKeys (dictErase k l) :=
  List.Nodup.sublist (List.Sublist.map Prod.fst (dictErase_sublist k l)) h

theorem not_mem_keys_dictErase_self (k : String) :
    ∀ {l : List (String × α)}, NodupKeys l → k ∉ (dictErase k l).map Prod.fst := by
  intro l
  induction l with
  | nil => intro _ h; exact absurd h (List.not_mem_nil _)
  | cons hd tl ih =>
    intro hnd
    obtain ⟨k', v'⟩ := hd
    simp only [NodupKeys, List.map_cons, List.nodup_cons] at hnd
    by_cases hk : k' = k
    · simp only [dictErase, if_pos hk]
      rw [← hk]
      exact hnd.1
    · simp only [dictErase, if_neg hk, List.map_cons, List.mem_cons, not_or]
      exact ⟨fun he => hk he.symm, ih hnd.2⟩

theorem dictGet?_dictErase_self (k : String) {l : List (String × α)} (h : NodupKeys l) :
    dictGet? k (dictErase k l) = none :=
  dictGet?_eq_none_of_not_mem_keys (not_mem_keys_dictErase_self k h)

theorem mem_keys_dictInsert {a k : String} {v : α} :
    ∀ {l : List (String × α)},
      a ∈ (dictInsert k v l).map Prod.fst ↔ a = k ∨ a ∈ l.map Prod.fst := by
  intro l
  induction l with
  | nil => simp [dictInsert]
  | cons hd tl ih =>
    obtain ⟨k', v'⟩ := hd
    by_cases hk : k' = k
    · have he : dictInsert k v ((k', v') :: tl) = (k, v) :: tl := by
        simp [dictInsert, hk]
      rw [he, hk]
      simp only [List.map_cons, List.mem_cons]
      tauto
    · simp only [dictInsert, if_neg hk, List.map_cons, List.mem_cons, ih]
      tauto

theorem nodupKeys_dictInsert (k : String) (v : α) :
    ∀ {l : List (String × α)}, NodupKeys l → NodupKeys (dictInsert k v l) := by
  intro l
  induction l with
  | nil => intro _; simp [dictInsert, NodupKeys]
  | cons hd tl ih =>
    intro hnd
    obtain ⟨k', v'⟩ := hd
    simp only [NodupKeys, List.map_cons, List.nodup_cons] at hnd
    by_cases hk : k' = k
    · simp only [dictInsert, if_pos hk, NodupKeys, List.map_cons, List.nodup_cons]
      refine ⟨?_, hnd.2⟩
      rw [← hk]
      exact hnd.1
    · simp only [dictInsert, if_neg hk, NodupKeys, List.map_cons, List.nodup_cons]
      refine ⟨fun hmem => ?_, ih hnd.2⟩
      rcases mem_keys_dictInsert.mp hmem with h | h
      · exact hk h
      · exact hnd.1 h

theorem mem_dictInsert_self (k : String) (v : α) :
    ∀ (l : List (String × α)), (k, v) ∈ dictInsert k v l := by
  intro l
  induction l with
  | nil => simp [dictInsert]
  | cons hd tl ih =>
    obtain ⟨k', v'⟩ := hd
    by_cases hk : k' = k
    · simp [dictInsert, hk]
    · simp only [dictInsert, if_neg hk]
      exact List.mem_cons_of_mem _ ih

theorem mem_dictInsert_elim {k : String} {v : α} {p : String × α} :
    ∀ {l : List (String × α)}, NodupKeys l → p ∈ dictInsert k v l →
      p = (k, v) ∨ (p ∈ l ∧ p.1 ≠ k) := by
  intro l
  induction l with
  | nil =>
    intro _ h
    simp only [dictInsert] at h
    rcases List.mem_cons.mp h with h1 | h1
    · exact Or.inl h1
    · exact absurd h1 (List.not_mem_nil _)
  | cons hd tl ih =>
    intro hnd h
    obtain ⟨k', v'⟩ := hd
    simp only [NodupKeys, List.map_cons, List.nodup_cons] at hnd
    by_cases hk : k' = k
    · simp only [dictInsert, if_pos hk] at h
      rcases List.mem_cons.mp h with h1 | h1
      · exact Or.inl h1
      · refine Or.inr ⟨List.mem_cons_of_mem _ h1, fun hpk => ?_⟩
        apply hnd.1
        rw [hk, ← hpk]
        exact List.mem_map.mpr ⟨p, h1, rfl⟩
    · simp only [dictInsert, if_neg hk] at h
      rcases List.mem_cons.mp h with h1 | h1
      · refine Or.inr ⟨List.mem_cons.mpr (Or.inl h1), ?_⟩
        rw [h1]
        exact hk
      · rcases ih hnd.2 h1 with h2 | h2
        · exact Or.inl h2
        · exact Or.inr ⟨List.mem_cons_of_mem _ h2.1, h2.2⟩

theorem dictInsert_of_not_contains {k : String} (v : α) :
    ∀ {l : List (String × α)}, dictGet? k l = none → dictInsert k v l = l ++ [(k, v)] := by
  intro l
  induction l with
  | nil => intro _; rfl
  | cons hd tl ih =>
    intro h
    obtain ⟨k', v'⟩ := hd
    simp only [dictGet?] at h
    by_cases hk : k' = k
    · rw [if_pos hk] at h; exact absurd h (by simp)
    · rw [if_neg hk] at h
      simp [dictInsert, hk, ih h]

theorem dictErase_append_self {k : String} (v : α) :
    ∀ {l : List (String × α)}, dictGet? k l = none → dictErase k (l ++ [(k, v)]) = l := by
  intro l
  induction l with
  | nil => intro _; simp [dictErase]
  | cons hd tl ih =>
    intro h
    obtain ⟨k', v'⟩ := hd
    simp only [dictGet?] at h
    by_cases hk : k' = k
    · rw [if_pos hk] at h; exact absurd h (by simp)
    · rw [if_neg hk] at h
      simp [dictErase, hk, ih h]

theorem dictContains_eq_false_iff {k : String} {l : List (String × α)} :
    dictContains k l = false ↔ dictGet? k l = none := by
  cases h : dictGet? k l <;> simp [dictContains, h]

end DictLemmas

theorem roundHalfEven_intCast (m : ℤ) : roundHalfEven (m : ℚ) = m := by
  simp [roundHalfEven]

theorem le_roundHalfEven (z : ℚ) : ⌊z⌋ ≤ roundHalfEven z := by
  unfold roundHalfEven
  split
  · exact le_refl _
  · split
    · exact Int.le_add_one (le_refl _)
    · split
      · exact le_refl _
      · exact Int.le_add_one (le_refl _)

theorem intCast_le_roundHalfEven {m : ℤ} {z : ℚ} (h : (m : ℚ) ≤ z) :
    m ≤ roundHalfEven z :=
  le_trans (Int.le_floor.mpr h) (le_roundHalfEven z)

theorem roundHalfEven_le_intCast {m : ℤ} {z : ℚ} (h : z ≤ (m : ℚ)) :
    roundHalfEven z ≤ m := by
  rcases eq_or_lt_of_le h with heq | hlt
  · rw [heq, roundHalfEven_intCast]
  · have hfl : ⌊z⌋ + 1 ≤ m := by
      have : ⌊z⌋ < m := Int.floor_lt.mpr hlt
      omega
    have hfle : ⌊z⌋ ≤ m := by omega
    unfold roundHalfEven
    split
    · exact hfle
    · split
      · exact hfl
      · split
        · exact hfle
        · exact hfl

theorem abs_roundHalfEven_sub_le (z : ℚ) : |(roundHalfEven z : ℚ) - z| ≤ 1/2 := by
  have h0 : (⌊z⌋ : ℚ) ≤ z := Int.floor_le z
  have h1 : z < (⌊z⌋ : ℚ) + 1 := Int.lt_floor_add_one z
  unfold roundHalfEven
  split
  · rename_i hr
    rw [abs_le]
    constructor <;> linarith
  · split
    · rename_i hr hr2
      push_cast
      rw [abs_le]
      constructor <;> linarith
    · rename_i hr hr2
      have hr3 : z - (⌊z⌋ : ℚ) = 1/2 := le_antisymm (not_lt.mp hr2) (not_lt.mp hr)
      split
      · rw [abs_le]; constructor <;> linarith
      · push_cast
        rw [abs_le]
        constructor <;> linarith

/-- Rounding to digits decimal places cannot cross a value that is itself
representable with digits decimal places: if y is on the grid and y ≤ x then
y ≤ round(x, digits). -/
theorem le_roundToDigits {y x : ℚ} {digits : ℕ} {m : ℤ}
    (hy : y * 10 ^ digits = (m : ℚ)) (hle : y ≤ x) : y ≤ roundToDigits x digits := by
  have hpow : (0 : ℚ) < 10 ^ digits := by positivity
  have h1 : (m : ℚ) ≤ x * 10 ^ digits := by
    rw [← hy]
    exact mul_le_mul_of_nonneg_right hle (le_of_lt hpow)
  have h2 : (m : ℚ) ≤ (roundHalfEven (x * 10 ^ digits) : ℚ) := by
    exact_mod_cast intCast_le_roundHalfEven h1
  have h3 : y = (m : ℚ) / 10 ^ digits := by
    field_simp [← hy]
  rw [h3, roundToDigits]
  exact div_le_div_of_nonneg_right h2 hpow.le

/-- Symmetric bound: if y is on the grid and x ≤ y then round(x, digits) ≤ y. -/
theorem roundToDigits_le {y x : ℚ} {digits : ℕ} {m : ℤ}
    (hy : y * 10 ^ digits = (m : ℚ)) (hle : x ≤ y) : roundToDigits x digits ≤ y := by
  have hpow : (0 : ℚ) < 10 ^ digits := by positivity
  have h1 : x * 10 ^ digits ≤ (m : ℚ) := by
    rw [← hy]
    exact mul_le_mul_of_nonneg_right hle (le_of_lt hpow)
  have h2 : ((roundHalfEven (x * 10 ^ digits) : ℤ) : ℚ) ≤ (m : ℚ) := by
    exact_mod_cast roundHalfEven_le_intCast h1
  have h3 : y = (m : ℚ) / 10 ^ digits := by
    field_simp [← hy]
  rw [h3, roundToDigits]
  exact div_le_div_of_nonneg_right h2 hpow.le

/-! ## Claim theorems -/

/-- C1: evaluation of the code at the failing input. With the mapping table
holding the keys GOLD (venue id X1) and GOLDF (venue id X2) in that insertion
order, the external identifier GOLDFUT has no exact match and contains both
keys, yet map_to_mt5 returns X1, the venue id of the FIRST key found, while
the longest contained key is GOLDF whose venue id is X2. The claim (and the
module's own demo comments in symbol_mapper.py lines 298-302 and 361-362,
which promise longest-match priority) require X2, so the code contradicts
its own documentation. -/
theorem c1_first_match_not_longest :
    map_to_mt5 ⟨[("GOLD", ⟨"X1", 1⟩), ("GOLDF", ⟨"X2", 1⟩)], []⟩ "GOLDFUT" = "X1" ∧
    specLongestContainedKey [("GOLD", ⟨"X1", 1⟩), ("GOLDF", ⟨"X2", 1⟩)] "GOLDFUT"
      = some "GOLDF" :=
  ⟨by decide, by decide⟩

/-- C9: a missing, unreadable or malformed configuration file (the caught
exception path, modelled by cfg = none) leaves the tables untouched, so the
constructed mapper has an empty table, no error reaches the caller, and every
subsequent resolution returns its input unchanged with volume ratio exactly
1. -/
theorem c9_missing_config_identity :
    (∀ s, load_mapping s none = s) ∧
    (init_mapper none).symbol_mapping = [] ∧
    (∀ S, map_to_mt5 (init_mapper none) S = S ∧ get_volume_ratio (init_mapper none) S = 1) :=
  ⟨fun _ => rfl, rfl, fun _ => ⟨rfl, rfl⟩⟩

/-- The closure loop visits the whole ticket list and ands the results. -/
theorem closeLoop_spec (f : ℕ → Bool) : ∀ (l : List ℕ) (b : Bool),
    closeLoop f l b = (l, b && l.all f) := by
  intro l
  induction l with
  | nil => intro b; simp [closeLoop]
  | cons t ts ih => intro b; simp [closeLoop, ih, List.all_cons, Bool.and_assoc]

/-- Batch closure over a present position list: all tickets attempted,
result is the conjunction of the individual outcomes. -/
theorem close_batch_spec (ps : List ℕ) (f : ℕ → Bool) :
    (close_positions_by_symbol true (some ps) f).1 = ps ∧
    (close_positions_by_symbol true (some ps) f).2 = ps.all f := by
  cases ps with
  | nil => simp [close_positions_by_symbol]
  | cons t ts => simp [close_positions_by_symbol, closeLoop_spec, List.all_cons]

/-- C5: close_positions_by_symbol and close_all_positions attempt a closure
for every matching open position (the attempted-ticket trace equals the whole
position list, so one failure never halts the batch), return true when zero
matching positions exist, and return true exactly when every individual
closure succeeded. -/
theorem c5_close_batch (ps : List ℕ) (f : ℕ → Bool) :
    (close_positions_by_symbol true (some ps) f).1 = ps ∧
    ((close_positions_by_symbol true (some ps) f).2 = true ↔ ps.all f = true) ∧
    (close_positions_by_symbol true (some []) f).2 = true ∧
    (close_all_positions true (some ps) f).1 = ps ∧
    ((close_all_positions true (some ps) f).2 = true ↔ ps.all f = true) ∧
    (close_all_positions true (some []) f).2 = true := by
  have hsame : ∀ c q g, close_all_positions c q g = close_positions_by_symbol c q g :=
    fun _ _ _ => rfl
  obtain ⟨h1, h2⟩ := close_batch_spec ps f
  obtain ⟨h3, h4⟩ := close_batch_spec [] f
  refine ⟨h1, by rw [h2], by rw [h4]; rfl, ?_, ?_, ?_⟩
  · rw [hsame]; exact h1
  · rw [hsame, h2]
  · rw [hsame, h4]; rfl

/-- C3: when the first submission raises (how the venue rejection of the
protective-price parameters surfaces through the client library), the
dispatcher resubmits exactly once with both protective prices omitted
entirely and returns the second response's outcome; in every case at most
two submissions happen, so the fallback can never loop. -/
theorem c3_single_protective_fallback (p : OrderParams) (o1 o2 : SubmitOutcome) :
    (open_position_submit p o1 o2).1.length ≤ 2 ∧
    (∀ msg, o1 = .raised msg →
      (open_position_submit p o1 o2).1 = [p, stripProtective p] ∧
      (stripProtective p).stopLoss = none ∧
      (stripProtective p).takeProfit = none ∧
      (open_position_submit p o1 o2).2 = responseToResult o2) := by
  cases o1 <;> simp [open_position_submit, stripProtective]

/-- C3 witness: a first submission raising invalid stops is followed by
exactly one stripped resubmission whose outcome is returned. -/
theorem c3_witness :
    ((open_position_submit (mkOrderParams "BTCUSDT" OrderSide.buy 1 95 105)
        (SubmitOutcome.raised "invalid stops") (SubmitOutcome.ok "42")).1
      = [mkOrderParams "BTCUSDT" OrderSide.buy 1 95 105,
         stripProtective (mkOrderParams "BTCUSDT" OrderSide.buy 1 95 105)] ∧
     (open_position_submit (mkOrderParams "BTCUSDT" OrderSide.buy 1 95 105)
        (SubmitOutcome.raised "invalid stops") (SubmitOutcome.ok "42")).2
      = responseToResult (SubmitOutcome.ok "42")) :=
  ⟨((c3_single_protective_fallback _ _ _).2 "invalid stops" rfl).1,
   ((c3_single_protective_fallback _ _ _).2 "invalid stops" rfl).2.2.2⟩

/-- Rounding to the nearest multiple of a positive tick lands within half a
tick of the unrounded value. -/
theorem roundMultiple_close {x t : ℚ} (ht : 0 < t) :
    |(roundHalfEven (x / t) : ℚ) * t - x| ≤ t / 2 := by
  have h := abs_roundHalfEven_sub_le (x / t)
  have hx : (roundHalfEven (x / t) : ℚ) * t - x = ((roundHalfEven (x / t) : ℚ) - x / t) * t := by
    field_simp
  rw [hx, abs_mul, abs_of_pos ht]
  calc |(roundHalfEven (x / t) : ℚ) - x / t| * t ≤ (1/2) * t :=
        mul_le_mul_of_nonneg_right h ht.le
    _ = t / 2 := by ring

/-- C7: calculate_sl_by_percentage returns entry_price - entry_price*pct/100
for a long and entry_price + entry_price*pct/100 for a short, rounded to the
nearest multiple of the venue tick size (the result is an exact integer
multiple of tick_size within tick_size/2 of the raw value); in particular,
for entry price 100, long side, percentage 10 and tick size 0.01 it returns
exactly 90. -/
theorem c7_percentage_sl :
    (∀ entry_price percentage tick_size : ℚ, 0 < tick_size →
      (∃ k : ℤ, calculate_sl_by_percentage .buy entry_price percentage tick_size
          = k * tick_size ∧
        |calculate_sl_by_percentage .buy entry_price percentage tick_size -
          (entry_price - entry_price * percentage / 100)| ≤ tick_size / 2) ∧
      (∃ k : ℤ, calculate_sl_by_percentage .sell entry_price percentage tick_size
          = k * tick_size ∧
        |calculate_sl_by_percentage .sell entry_price percentage tick_size -
          (entry_price + entry_price * percentage / 100)| ≤ tick_size / 2)) ∧
    calculate_sl_by_percentage .buy 100 10 (1/100) = 90 := by
  constructor
  · intro e pct t ht
    constructor
    · refine ⟨roundHalfEven ((e - e * (pct / 100)) / t), rfl, ?_⟩
      have := roundMultiple_close (x := e - e * (pct / 100)) (t := t) ht
      calc |calculate_sl_by_percentage .buy e pct t - (e - e * pct / 100)|
          = |(roundHalfEven ((e - e * (pct / 100)) / t) : ℚ) * t - (e - e * (pct / 100))| := by
            rw [calculate_sl_by_percentage]; ring_nf
        _ ≤ t / 2 := this
    · refine ⟨roundHalfEven ((e + e * (pct / 100)) / t), rfl, ?_⟩
      have := roundMultiple_close (x := e + e * (pct / 100)) (t := t) ht
      calc |calculate_sl_by_percentage .sell e pct t - (e + e * pct / 100)|
          = |(roundHalfEven ((e + e * (pct / 100)) / t) : ℚ) * t - (e + e * (pct / 100))| := by
            rw [calculate_sl_by_percentage]; ring_nf
        _ ≤ t / 2 := this
  · norm_num [calculate_sl_by_percentage, roundHalfEven]

/-- C7 witness at tick size 0.01. -/
theorem c7_witness :
    (0 : ℚ) < 1/100 ∧
    (∃ k : ℤ, calculate_sl_by_percentage .buy 100 10 (1/100) = k * (1/100) ∧
      |calculate_sl_by_percentage .buy 100 10 (1/100) - ((100:ℚ) - 100 * 10 / 100)|
        ≤ (1/100) / 2) :=
  ⟨by norm_num, (c7_percentage_sl.1 100 10 (1/100) (by norm_num)).1⟩

/-- C4 (amended): the quantity submitted to the venue is always an exact
integer multiple of qty_step, and it is at least min_order_qty whenever
min_order_qty is itself an integer multiple of qty_step (as on real venue
instruments); a quantity below the minimum is raised, not rejected. -/
theorem c4_normalized_quantity (q min_order_qty qty_step : ℚ) (k : ℤ)
    (hq : 0 < q) (hstep : 0 < qty_step) (hmin : min_order_qty = k * qty_step) :
    (∃ m : ℤ, bybit_normalize_volume q min_order_qty qty_step = m * qty_step) ∧
    min_order_qty ≤ bybit_normalize_volume q min_order_qty qty_step := by
  constructor
  · exact ⟨roundHalfEven ((if q < min_order_qty then min_order_qty else q) / qty_step), rfl⟩
  · have hraised : min_order_qty ≤ (if q < min_order_qty then min_order_qty else q) := by
      split
      · exact le_refl _
      · exact le_of_not_lt (by assumption)
    have hdiv : (k : ℚ) ≤ (if q < min_order_qty then min_order_qty else q) / qty_step := by
      rw [le_div_iff₀ hstep, ← hmin]
      exact hraised
    have hrhe : (k : ℚ) ≤
        (roundHalfEven ((if q < min_order_qty then min_order_qty else q) / qty_step) : ℚ) := by
      exact_mod_cast intCast_le_roundHalfEven hdiv
    calc min_order_qty = k * qty_step := hmin
      _ ≤ (roundHalfEven ((if q < min_order_qty then min_order_qty else q) / qty_step) : ℚ)
            * qty_step := mul_le_mul_of_nonneg_right hrhe hstep.le
      _ = bybit_normalize_volume q min_order_qty qty_step := rfl

/-- C4 counterexample to the claim as stated: with min_order_qty 0.0025 and
qty_step 0.002 (the minimum not a multiple of the step), the requested
quantity 0.001 > 0 is raised to 0.0025 and then step-rounding pulls it back
down to 0.002, strictly below min_order_qty. -/
theorem c4_counterexample :
    (0 : ℚ) < 1/1000 ∧
    bybit_normalize_volume (1/1000) (1/400) (1/500) < 1/400 := by
  constructor
  · norm_num
  · norm_num [bybit_normalize_volume, roundHalfEven]

/-- C4 witness: quantity 0.003 with minimum 0.001 and step 0.001. -/
theorem c4_witness :
    ((0:ℚ) < 3/1000 ∧ (0:ℚ) < 1/1000 ∧ (1/1000 : ℚ) = (1 : ℤ) * (1/1000)) ∧
    ((∃ m : ℤ, bybit_normalize_volume (3/1000) (1/1000) (1/1000) = m * (1/1000)) ∧
     (1/1000 : ℚ) ≤ bybit_normalize_volume (3/1000) (1/1000) (1/1000)) :=
  ⟨⟨by norm_num, by norm_num, by norm_num⟩,
   c4_normalized_quantity (3/1000) (1/1000) (1/1000) 1
     (by norm_num) (by norm_num) (by norm_num)⟩

/-- C2 counterexample to the claim as stated: the Bybit target-profit
computation (bybit_trader.py lines 269-276) applies no minimum-distance
clamp: long entry 100, quantity 1, target profit 1 yields take-profit 101,
which is closer to the entry than a venue minimum protective distance of 5
(101 < 100 + 5). -/
theorem c2_counterexample :
    bybit_tp_from_profit .buy 100 1 1 = 101 ∧
    ¬ ((100:ℚ) + 5 ≤ bybit_tp_from_profit .buy 100 1 1) := by
  norm_num [bybit_tp_from_profit]

/-- C2 (amended): the MT5 target-profit computation
calculate_tp_by_profit_amount does satisfy the clamp: for valid venue facts
(nonzero tick value, tick size and quantity) and an entry price and minimum
distance on the venue's price grid (so that the final rounding to digits
decimal places cannot cross the bound), the returned take-profit is at least
entry_price + stops_level*point for a long and at most
entry_price - stops_level*point for a short. The Bybit computation applies
no clamp (see the counterexample). -/
theorem c2_mt5_clamp (order_type : OrderSide)
    (volume entry_price profit_amount tick_value tick_size point stops_level : ℚ)
    (digits : ℕ)
    (htv : tick_value ≠ 0) (hts : tick_size ≠ 0) (hv : volume ≠ 0)
    (hb : ∃ m : ℤ, (entry_price + stops_level * point) * 10 ^ digits = (m : ℚ))
    (hs : ∃ m : ℤ, (entry_price - stops_level * point) * 10 ^ digits = (m : ℚ)) :
    (order_type = .buy →
      entry_price + stops_level * point ≤
        calculate_tp_by_profit_amount order_type volume entry_price profit_amount
          tick_value tick_size point stops_level digits) ∧
    (order_type = .sell →
      calculate_tp_by_profit_amount order_type volume entry_price profit_amount
        tick_value tick_size point stops_level digits ≤
        entry_price - stops_level * point) := by
  obtain ⟨mb, hmb⟩ := hb
  obtain ⟨ms, hms⟩ := hs
  constructor
  · rintro rfl
    unfold calculate_tp_by_profit_amount
    rw [if_neg (by push_neg; exact ⟨htv, hts⟩)]
    dsimp only
    apply le_roundToDigits hmb
    split
    · exact le_refl _
    · exact le_of_not_lt (by assumption)
  · rintro rfl
    unfold calculate_tp_by_profit_amount
    rw [if_neg (by push_neg; exact ⟨htv, hts⟩)]
    dsimp only
    apply roundToDigits_le hms
    split
    · exact le_refl _
    · exact le_of_not_lt (by assumption)

/-- C2 witness: long, entry 100, stops_level 5, point 0.01, digits 2. -/
theorem c2_mt5_clamp_witness :
    ((1:ℚ) ≠ 0 ∧ (1/2:ℚ) ≠ 0 ∧
     (∃ m : ℤ, ((100:ℚ) + 5 * (1/100)) * 10 ^ 2 = (m : ℚ)) ∧
     (∃ m : ℤ, ((100:ℚ) - 5 * (1/100)) * 10 ^ 2 = (m : ℚ))) ∧
    (OrderSide.buy = OrderSide.buy →
      (100:ℚ) + 5 * (1/100) ≤
        calculate_tp_by_profit_amount .buy 1 100 1 1 (1/2) (1/100) 5 2) :=
  ⟨⟨by norm_num, by norm_num, ⟨10005, by norm_num⟩, ⟨9995, by norm_num⟩⟩,
   (c2_mt5_clamp .buy 1 100 1 1 (1/2) (1/100) 5 2 (by norm_num) (by norm_num) (by norm_num)
     ⟨10005, by norm_num⟩ ⟨9995, by norm_num⟩).1⟩

section MapperInvariant

theorem mem_dictInsert_weak {α : Type u} {k : String} {v : α} {p : String × α} :
    ∀ {l : List (String × α)}, p ∈ dictInsert k v l → p = (k, v) ∨ p ∈ l := by
  intro l
  induction l with
  | nil =>
    intro h
    simp only [dictInsert] at h
    rcases List.mem_cons.mp h with h1 | h1
    · exact Or.inl h1
    · exact absurd h1 (List.not_mem_nil _)
  | cons hd tl ih =>
    intro h
    obtain ⟨k', v'⟩ := hd
    by_cases hk : k' = k
    · simp only [dictInsert, if_pos hk] at h
      rcases List.mem_cons.mp h with h1 | h1
      · exact Or.inl h1
      · exact Or.inr (List.mem_cons_of_mem _ h1)
    · simp only [dictInsert, if_neg hk] at h
      rcases List.mem_cons.mp h with h1 | h1
      · exact Or.inr (List.mem_cons.mpr (Or.inl h1))
      · rcases ih h1 with h2 | h2
        · exact Or.inl h2
        · exact Or.inr (List.mem_cons_of_mem _ h2)

theorem mem_dictInsert_of_ne {α : Type u} {k : String} (v : α) {p : String × α}
    (hne : p.1 ≠ k) : ∀ {l : List (String × α)}, p ∈ l → p ∈ dictInsert k v l := by
  intro l
  induction l with
  | nil => intro h; exact absurd h (List.not_mem_nil _)
  | cons hd tl ih =>
    intro h
    obtain ⟨k', v'⟩ := hd
    by_cases hk : k' = k
    · simp only [dictInsert, if_pos hk]
      rcases List.mem_cons.mp h with h1 | h1
      · exfalso
        apply hne
        rw [h1, hk]
      · exact List.mem_cons_of_mem _ h1
    · rcases List.mem_cons.mp h with h1 | h1
      · simp only [dictInsert, if_neg hk]
        exact List.mem_cons.mpr (Or.inl h1)
      · simp only [dictInsert, if_neg hk]
        exact List.mem_cons_of_mem _ (ih h1)

theorem dictGet?_of_mem_nodup {α : Type u} {k : String} {i : α} :
    ∀ {l : List (String × α)}, NodupKeys l → (k, i) ∈ l → dictGet? k l = some i := by
  intro l
  induction l with
  | nil => intro _ h; exact absurd h (List.not_mem_nil _)
  | cons hd tl ih =>
    intro hnd h
    obtain ⟨k', v'⟩ := hd
    simp only [NodupKeys, List.map_cons, List.nodup_cons] at hnd
    rcases List.mem_cons.mp h with h1 | h1
    · obtain ⟨hk, hi⟩ := Prod.mk.injEq .. ▸ h1
      simp [dictGet?, hk.symm, hi]
    · by_cases hk : k' = k
      · exfalso
        apply hnd.1
        rw [hk]
        exact List.mem_map.mpr ⟨(k, i), h1, rfl⟩
      · simp only [dictGet?, if_neg hk]
        exact ih hnd.2 h1

/-- A key that occurs in the table is found by lookup. -/
theorem exists_dictGet?_eq_some_of_mem {α : Type u} {k : String} {x : α} :
    ∀ {l : List (String × α)}, (k, x) ∈ l → ∃ y, dictGet? k l = some y := by
  intro l
  induction l with
  | nil => intro h; exact absurd h (List.not_mem_nil _)
  | cons hd tl ih =>
    intro h
    obtain ⟨k', v'⟩ := hd
    by_cases hk : k' = k
    · exact ⟨v', by simp [dictGet?, hk]⟩
    · rcases List.mem_cons.mp h with h1 | h1
      · exfalso
        apply hk
        have := congrArg Prod.fst h1
        exact this.symm
      · obtain ⟨y, hy⟩ := ih h1
        exact ⟨y, by simp [dictGet?, hk, hy]⟩

/-- The executable invariant check agrees with the proposition. -/
theorem checkReverseInv_iff (s : SymbolMapper) :
    checkReverseInv s = true ↔ ReverseInv s := by
  simp [checkReverseInv, ReverseInv, List.all_eq_true, List.any_eq_true, beq_iff_eq]

/-- Merging configuration entries keeps forward keys distinct. -/
theorem mergeConfigEntries_nodup (entries : List (String × ConfigVal)) :
    ∀ {m : List (String × MappingInfo)}, NodupKeys m →
      NodupKeys (mergeConfigEntries entries m) := by
  induction entries with
  | nil => intro m h; exact h
  | cons kv rest ih =>
    intro m h
    simp only [mergeConfigEntries, List.foldl_cons]
    apply ih
    cases hn : normalizeEntry kv.1 kv.2 with
    | none => simpa [hn] using h
    | some info => simpa [hn] using nodupKeys_dictInsert _ _ h

/-- The reverse rebuild keeps reverse keys distinct. -/
theorem rebuildReverseAux_nodup :
    ∀ (L : List (String × MappingInfo)) (acc : List (String × String)),
      NodupKeys acc → NodupKeys (rebuildReverseAux acc L) := by
  intro L
  induction L with
  | nil => intro acc h; exact h
  | cons kv rest ih =>
    intro acc h
    simp only [rebuildReverseAux]
    apply ih
    split
    · exact h
    · exact nodupKeys_dictInsert _ _ h

/-- Every entry produced by the reverse rebuild comes from the accumulator
or from a forward entry with that venue symbol. -/
theorem rebuildReverseAux_mem :
    ∀ (L : List (String × MappingInfo)) (acc : List (String × String)) (p : String × String),
      p ∈ rebuildReverseAux acc L →
      p ∈ acc ∨ ∃ q ∈ L, q.2.symbol = p.1 := by
  intro L
  induction L with
  | nil =>
    intro acc p h
    exact Or.inl h
  | cons kv rest ih =>
    intro acc p h
    simp only [rebuildReverseAux] at h
    rcases ih _ p h with h1 | ⟨q, hq, hqs⟩
    · by_cases hc : dictContains kv.2.symbol acc = true
      · rw [if_pos hc] at h1
        exact Or.inl h1
      · rw [if_neg hc] at h1
        rcases mem_dictInsert_weak h1 with h2 | h2
        · refine Or.inr ⟨kv, List.mem_cons_self _ _, ?_⟩
          rw [h2]
        · exact Or.inl h2
    · exact Or.inr ⟨q, List.mem_cons_of_mem _ hq, hqs⟩

/-- The empty mapper has distinct keys. -/
theorem emptyMapper_wellFormed : wellFormed emptyMapper :=
  ⟨List.nodup_nil, List.nodup_nil⟩

/-- The empty mapper satisfies the reverse-index invariant. -/
theorem emptyMapper_reverseInv : ReverseInv emptyMapper :=
  fun p hp => absurd hp (List.not_mem_nil _)

/-- One operation preserves well-formedness and the reverse-index
invariant, provided an add never re-binds an existing external symbol to a
different venue symbol. -/
theorem applyOp_preserves (s : SymbolMapper) (op : MapperOp)
    (hwf : wellFormed s) (hinv : ReverseInv s) (hsafe : checkSafeOp s op = true) :
    wellFormed (applyOp s op) ∧ ReverseInv (applyOp s op) := by
  cases op with
  | load cfg =>
    show wellFormed (load_mapping s (some cfg)) ∧ ReverseInv (load_mapping s (some cfg))
    simp only [load_mapping]
    constructor
    · exact ⟨mergeConfigEntries_nodup cfg hwf.1, rebuildReverseAux_nodup _ _ List.nodup_nil⟩
    · intro p hp
      rcases rebuildReverseAux_mem _ _ _ hp with h | h
      · exact absurd h (List.not_mem_nil _)
      · exact h
  | add e v r =>
    show wellFormed (add_mapping s e v r).1 ∧ ReverseInv (add_mapping s e v r).1
    by_cases hev : e = "" ∨ v = ""
    · simp only [add_mapping, if_pos hev]
      exact ⟨hwf, hinv⟩
    · simp only [add_mapping, if_neg hev]
      refine ⟨⟨nodupKeys_dictInsert _ _ hwf.1, nodupKeys_dictInsert _ _ hwf.2⟩, ?_⟩
      intro p hp
      rcases mem_dictInsert_elim hwf.2 hp with h | ⟨hmem, hne⟩
      · refine ⟨(e, ⟨v, r⟩), mem_dictInsert_self _ _ _, ?_⟩
        rw [h]
      · obtain ⟨q, hq, hqsym⟩ := hinv p hmem
        by_cases hqe : q.1 = e
        · exfalso
          have hget : dictGet? e s.symbol_mapping = some q.2 := by
            apply dictGet?_of_mem_nodup hwf.1
            rw [← hqe]
            exact hq
          rw [checkSafeOp, hget] at hsafe
          have hsym : q.2.symbol = v := by
            exact beq_iff_eq.mp hsafe
          exact hne (by rw [← hqsym, hsym])
        · exact ⟨q, mem_dictInsert_of_ne _ hqe hq, hqsym⟩
  | remove e =>
    show wellFormed (remove_mapping s e).1 ∧ ReverseInv (remove_mapping s e).1
    cases hg : dictGet? e s.symbol_mapping with
    | none =>
      simp only [remove_mapping, hg]
      exact ⟨hwf, hinv⟩
    | some i =>
      simp only [remove_mapping, hg]
      constructor
      · refine ⟨nodupKeys_dictErase _ hwf.1, ?_⟩
        dsimp only
        split
        · exact nodupKeys_dictErase _ hwf.2
        · exact hwf.2
      · intro p hp
        dsimp only at hp ⊢
        have hrev : p ∈ s.reverse_mapping ∧ p.1 ≠ i.symbol := by
          by_cases hc : dictContains i.symbol s.reverse_mapping = true
          · rw [if_pos hc] at hp
            have hmem : p ∈ s.reverse_mapping := mem_of_mem_dictErase (k := i.symbol) hp
            refine ⟨hmem, fun hps => ?_⟩
            apply not_mem_keys_dictErase_self i.symbol hwf.2
            exact List.mem_map.mpr ⟨p, hp, hps⟩
          · rw [if_neg hc] at hp
            refine ⟨hp, fun hps => ?_⟩
            have hcf : dictContains i.symbol s.reverse_mapping = false := by
              revert hc
              cases dictContains i.symbol s.reverse_mapping <;> simp
            have hnone : dictGet? i.symbol s.reverse_mapping = none :=
              dictContains_eq_false_iff.mp hcf
            obtain ⟨y, hy⟩ :=
              exists_dictGet?_eq_some_of_mem (k := i.symbol) (x := p.2)
                (l := s.reverse_mapping) (by rw [← hps]; exact hp)
            rw [hnone] at hy
            exact Option.noConfusion hy
        obtain ⟨q, hq, hqsym⟩ := hinv p hrev.1
        have hqe : q.1 ≠ e := by
          intro he
          have hget : dictGet? e s.symbol_mapping = some q.2 := by
            apply dictGet?_of_mem_nodup hwf.1
            rw [← he]
            exact hq
          rw [hg] at hget
          have hq2 : q.2 = i := (Option.some.inj hget).symm
          apply hrev.2
          rw [← hqsym, hq2]
        exact ⟨q, mem_dictErase_of_ne hqe hq, hqsym⟩

end MapperInvariant

/-- Sequences of non-rebinding operations preserve well-formedness and the
reverse-index invariant. -/
theorem applyOps_preserves (ops : List MapperOp) :
    ∀ s : SymbolMapper, wellFormed s → ReverseInv s → checkSafeOps s ops = true →
      wellFormed (applyOps s ops) ∧ ReverseInv (applyOps s ops) := by
  induction ops with
  | nil => intro s h1 h2 _; exact ⟨h1, h2⟩
  | cons op rest ih =>
    intro s h1 h2 hsafe
    simp only [checkSafeOps, Bool.and_eq_true] at hsafe
    have step := applyOp_preserves s op h1 h2 hsafe.1
    have := ih (applyOp s op) step.1 step.2 hsafe.2
    simpa [applyOps, List.foldl_cons] using this

/-- C6 (amended): after any sequence of load, add and remove operations
from the empty table in which no add re-binds an existing external symbol to
a different venue symbol, every venue id in the reverse index has at least
one forward entry carrying it; and removing the last forward entry of a
venue id leaves no reverse entry for it. (An add that re-binds an external
symbol to a new venue id leaves a stale reverse entry, see the
counterexample.) -/
theorem c6_reverse_index_invariant (ops : List MapperOp)
    (hsafe : checkSafeOps emptyMapper ops = true) :
    checkReverseInv (applyOps emptyMapper ops) = true ∧
    (∀ e info,
      dictGet? e (applyOps emptyMapper ops).symbol_mapping = some info →
      (∀ q ∈ (applyOps emptyMapper ops).symbol_mapping, q.1 ≠ e → q.2.symbol ≠ info.symbol) →
      dictContains info.symbol
        ((remove_mapping (applyOps emptyMapper ops) e).1).reverse_mapping = false) := by
  obtain ⟨hwf, hinv⟩ :=
    applyOps_preserves ops emptyMapper emptyMapper_wellFormed emptyMapper_reverseInv hsafe
  refine ⟨(checkReverseInv_iff _).mpr hinv, ?_⟩
  intro e info hget hlast
  simp only [remove_mapping, hget]
  by_cases hc : dictContains info.symbol (applyOps emptyMapper ops).reverse_mapping = true
  · rw [if_pos hc]
    rw [dictContains_eq_false_iff]
    exact dictGet?_dictErase_self _ hwf.2
  · rw [if_neg hc]
    revert hc
    cases dictContains info.symbol (applyOps emptyMapper ops).reverse_mapping <;> simp

/-- C6 counterexample to the claim as stated: after add("A","X") followed
by the overwriting add("A","Y"), the reverse index still holds X although no
forward entry maps to X. -/
theorem c6_counterexample :
    checkReverseInv (applyOps emptyMapper
      [MapperOp.add "A" "X" 1, MapperOp.add "A" "Y" 1]) = false := by
  decide

/-- C6 witness: the non-rebinding sequence add("A","X"); remove("A"). -/
theorem c6_witness :
    checkSafeOps emptyMapper [MapperOp.add "A" "X" 1, MapperOp.remove "A"] = true ∧
    (checkReverseInv (applyOps emptyMapper
        [MapperOp.add "A" "X" 1, MapperOp.remove "A"]) = true ∧
     (∀ e info,
       dictGet? e (applyOps emptyMapper
         [MapperOp.add "A" "X" 1, MapperOp.remove "A"]).symbol_mapping = some info →
       (∀ q ∈ (applyOps emptyMapper
           [MapperOp.add "A" "X" 1, MapperOp.remove "A"]).symbol_mapping,
         q.1 ≠ e → q.2.symbol ≠ info.symbol) →
       dictContains info.symbol
         ((remove_mapping (applyOps emptyMapper
           [MapperOp.add "A" "X" 1, MapperOp.remove "A"]) e).1).reverse_mapping = false)) :=
  ⟨by decide, c6_reverse_index_invariant _ (by decide)⟩

/-- C8 (amended): add(E,V,r) followed by remove(E) restores the resolve
behavior (both map_to_mt5 and get_volume_ratio on every input) whenever E was
not already a key of the forward table; in fact the forward table itself is
restored exactly. (If E was already mapped, remove deletes the original
entry too, see the counterexample.) -/
theorem c8_add_remove_restores_resolve (s : SymbolMapper) (E V : String) (r : ℚ)
    (h : dictGet? E s.symbol_mapping = none) :
    ∀ S, map_to_mt5 ((remove_mapping (add_mapping s E V r).1 E).1) S = map_to_mt5 s S ∧
         get_volume_ratio ((remove_mapping (add_mapping s E V r).1 E).1) S =
           get_volume_ratio s S := by
  have hforward :
      ((remove_mapping (add_mapping s E V r).1 E).1).symbol_mapping = s.symbol_mapping := by
    by_cases hev : E = "" ∨ V = ""
    · simp only [add_mapping, if_pos hev, remove_mapping, h]
    · simp only [add_mapping, if_neg hev, remove_mapping]
      rw [dictGet?_dictInsert_self]
      dsimp only
      rw [dictInsert_of_not_contains _ h, dictErase_append_self _ h]
  intro S
  constructor
  · simp only [map_to_mt5, hforward]
  · simp only [get_volume_ratio, hforward]

/-- C8 witness: fresh key B added then removed on the empty mapper. -/
theorem c8_witness :
    dictGet? "B" emptyMapper.symbol_mapping = none ∧
    (map_to_mt5 ((remove_mapping (add_mapping emptyMapper "B" "Y" 2).1 "B").1) "B"
       = map_to_mt5 emptyMapper "B" ∧
     get_volume_ratio ((remove_mapping (add_mapping emptyMapper "B" "Y" 2).1 "B").1) "B"
       = get_volume_ratio emptyMapper "B") :=
  ⟨rfl, c8_add_remove_restores_resolve emptyMapper "B" "Y" 2 rfl "B"⟩

/-- C10: when two distinct external symbols map forward to the same venue
symbol v, removing either of them deletes the single reverse entry of v, so
reverse translation of v afterwards returns v itself even though the other
forward mapping to v still exists. -/
theorem c10_remove_shared_venue (s : SymbolMapper) (e1 e2 v : String)
    (hw : NodupKeys s.reverse_mapping)
    (h1 : (dictGet? e1 s.symbol_mapping).map MappingInfo.symbol = some v)
    (h2 : (dictGet? e2 s.symbol_mapping).map MappingInfo.symbol = some v)
    (hne : e2 ≠ e1) :
    map_from_mt5 ((remove_mapping s e1).1) v = v ∧
    (dictGet? e2 ((remove_mapping s e1).1).symbol_mapping).map MappingInfo.symbol
      = some v := by
  obtain ⟨i1, hi1, hsym1⟩ : ∃ i, dictGet? e1 s.symbol_mapping = some i ∧ i.symbol = v := by
    cases hg : dictGet? e1 s.symbol_mapping with
    | none => rw [hg] at h1; exact absurd h1 (by simp)
    | some i => rw [hg] at h1; exact ⟨i, rfl, by simpa using h1⟩
  simp only [remove_mapping, hi1]
  constructor
  · rw [map_from_mt5]
    dsimp only
    rw [hsym1]
    by_cases hc : dictContains v s.reverse_mapping = true
    · rw [if_pos hc, dictGet?_dictErase_self v hw]
    · rw [if_neg hc]
      have hcf : dictContains v s.reverse_mapping = false := by
        revert hc
        cases dictContains v s.reverse_mapping <;> simp
      rw [dictContains_eq_false_iff.mp hcf]
  · rw [dictGet?_dictErase_ne hne, h2]

/-- C10 witness: A and B both mapped to X; removing A. -/
theorem c10_witness :
    (NodupKeys ((add_mapping (add_mapping emptyMapper "A" "X" 1).1 "B" "X" 1).1).reverse_mapping ∧
     (dictGet? "A" ((add_mapping (add_mapping emptyMapper "A" "X" 1).1 "B" "X" 1).1).symbol_mapping).map
        MappingInfo.symbol = some "X" ∧
     (dictGet? "B" ((add_mapping (add_mapping emptyMapper "A" "X" 1).1 "B" "X" 1).1).symbol_mapping).map
        MappingInfo.symbol = some "X" ∧
     ("B" : String) ≠ "A") ∧
    (map_from_mt5 ((remove_mapping (add_mapping (add_mapping emptyMapper "A" "X" 1).1 "B" "X" 1).1 "A").1) "X"
       = "X" ∧
     (dictGet? "B" ((remove_mapping (add_mapping (add_mapping emptyMapper "A" "X" 1).1 "B" "X" 1).1 "A").1).symbol_mapping).map
        MappingInfo.symbol = some "X") :=
  ⟨⟨by unfold NodupKeys; decide, by decide, by decide, by decide⟩,
   c10_remove_shared_venue (add_mapping (add_mapping emptyMapper "A" "X" 1).1 "B" "X" 1).1
     "A" "B" "X" (by unfold NodupKeys; decide) (by decide) (by decide) (by decide)⟩

/-- C8 counterexample to the claim as stated: when E is already mapped,
add(E,V,r) overwrites the original entry and remove(E) then deletes E
entirely, so resolve does not return to its pre-add behavior: with AB
originally mapped to X, after add("AB","Y") and remove("AB") the table is
empty and resolve("AB") returns AB instead of X. -/
theorem c8_counterexample :
    map_to_mt5 ((remove_mapping
        (add_mapping (add_mapping emptyMapper "AB" "X" 1).1 "AB" "Y" 1).1 "AB").1) "AB"
      = "AB" ∧
    map_to_mt5 (add_mapping emptyMapper "AB" "X" 1).1 "AB" = "X" :=
  ⟨by decide, by decide⟩
